import Mathlib

/-!
Shallow embedding of the GitHub repositories viewer service
(`main.py`, `models.py`, `schemas.py`, `database.py`).

The relational store is modelled as explicit lists of user and repository
rows, together with counters for the surrogate primary keys.  Sessions are
created with `autoflush=False`, so objects added with `db.add` are invisible
to later queries until `db.commit`; the model keeps such pending rows in a
separate list.  The commit validates the constraints declared in
`models.py` that the touched rows could violate: `name` and `html_url` are
`NOT NULL`, and `(user_id, github_id)` carries the unique constraint
`uq_user_repo`.  A violation raises, the transaction is rolled back, and the
caller sees an error with the store unchanged.

Timestamps are modelled as natural numbers; the fetched GitHub records are
loosely structured dictionaries, modelled as a structure of optional fields
(`repo.get(k)` returns `None` for a missing key).
-/

/-- One fetched repository record: a loosely structured mapping, every
field access goes through `.get` and may be absent. -/
structure RepoRecord where
  id : Option Int
  name : Option String
  html_url : Option String
  description : Option String
  language : Option String
deriving Repr, DecidableEq

/-- A row of the `users` table (the columns the sync logic touches). -/
structure UserRow where
  id : Nat
  username : String
  last_synced_at : Option Nat
deriving Repr, DecidableEq

/-- A row of the `repositories` table. `name` and `html_url` are declared
`NOT NULL` in `models.py`, but an ORM object can hold `None` in them until
the flush at commit rejects it; hence `Option` here, with the commit check
enforcing presence. -/
structure RepoRow where
  id : Nat
  user_id : Nat
  github_id : Int
  name : Option String
  html_url : Option String
  description : Option String
  language : Option String
deriving Repr, DecidableEq

/-- The committed state of the relational store. -/
structure Store where
  users : List UserRow
  repos : List RepoRow
  next_user_id : Nat
  next_repo_id : Nat
deriving Repr, DecidableEq

/-- Errors raised by the store while flushing/committing a transaction
(NOT NULL or unique-constraint violations). -/
inductive StoreError where
  | integrityError
deriving Repr, DecidableEq

/-- `schemas.RepositoryBase`: the serialized repository in a response. -/
structure RepositoryBase where
  name : String
  html_url : String
  description : Option String
  language : Option String
deriving Repr, DecidableEq

/-- `schemas.UserSyncResponse`. -/
structure UserSyncResponse where
  username : String
  status : String
  is_new : Bool
  repositories : List RepositoryBase
deriving Repr, DecidableEq

/-- `RepositoryBase.from_orm`: project the ORM row onto the response
schema.  Rows reaching this point passed the commit check, so `name` and
`html_url` are present. -/
def RepositoryBase.from_orm (r : RepoRow) : RepositoryBase :=
  { name := r.name.getD ""
    html_url := r.html_url.getD ""
    description := r.description
    language := r.language }

/-- The four field assignments `db_repo.name = repo.get("name")` … of the
loop body in `upsert_user_and_repos`. -/
def applyFields (rec : RepoRecord) (r : RepoRow) : RepoRow :=
  { r with name := rec.name
           html_url := rec.html_url
           description := rec.description
           language := rec.language }

/-- The update branch of the loop: the `.first()` row matching
`(user_id, github_id)` gets its fields overwritten; the unique constraint
guarantees at most one match on reachable stores. -/
def updateFirst (uid : Nat) (gid : Int) (rec : RepoRecord) : List RepoRow → List RepoRow
  | [] => []
  | r :: rs =>
    if r.user_id == uid && r.github_id == gid then applyFields rec r :: rs
    else r :: updateFirst uid gid rec rs

/-- Result of the per-record loop of `upsert_user_and_repos`:
the accumulated `github_repo_ids`, the transaction-visible repository rows
(with in-memory field updates applied), the pending `db.add`-ed rows not
yet visible to queries (`autoflush=False`), and the next surrogate id. -/
structure LoopOut where
  ids : List Int
  dbRepos : List RepoRow
  pending : List RepoRow
  nextId : Nat
deriving Repr, DecidableEq

/-- The `for repo in repos_data:` loop of `upsert_user_and_repos`.
Records without an `"id"` key are skipped.  The existence query sees only
`dbRepos` (pending inserts are not flushed), so a record whose id matches
no committed row always creates a fresh pending row, even if an identical
pending row was already added. -/
def processRepos (uid : Nat) : List RepoRecord → List RepoRow → List RepoRow → Nat → LoopOut
  | [], d, p, n => ⟨[], d, p, n⟩
  | rec :: rest, d, p, n =>
    match rec.id with
    | none => processRepos uid rest d p n
    | some gid =>
      if d.any (fun r => r.user_id == uid && r.github_id == gid) then
        let out := processRepos uid rest (updateFirst uid gid rec d) p n
        ⟨gid :: out.ids, out.dbRepos, out.pending, out.nextId⟩
      else
        let out := processRepos uid rest d
          (p ++ [⟨n, uid, gid, rec.name, rec.html_url, rec.description, rec.language⟩]) (n + 1)
        ⟨gid :: out.ids, out.dbRepos, out.pending, out.nextId⟩

/-- Boolean no-duplicates check on the external ids of a user's rows,
i.e. the `uq_user_repo` unique constraint restricted to the rows the
transaction flushes. -/
def nodupKeys : List Int → Bool
  | [] => true
  | x :: xs => !(xs.contains x) && nodupKeys xs

/-- `upsert_user_and_repos` from `main.py`.

Steps, mirroring the source: look up the user by username, create and flush
it if absent; loop over the records, skipping id-less ones, updating the
matching committed row or adding a pending row; bulk-delete the user's rows
whose `github_id` is not among the processed ids; set `last_synced_at`;
commit (constraint check: NOT NULL on `name`/`html_url` and uniqueness of
`(user_id, github_id)` over this user's flushed rows — only rows of this
user are inserted or updated); finally re-query the user's rows ordered by
name ascending and serialize them. -/
def upsert_user_and_repos (db : Store) (username : String) (repos_data : List RepoRecord)
    (now : Nat) : Except StoreError (Store × UserSyncResponse) :=
  let found := db.users.find? (fun x => x.username == username)
  let user : UserRow :=
    match found with
    | some u => u
    | none => { id := db.next_user_id, username := username, last_synced_at := none }
  let is_new : Bool := found.isNone
  let users1 : List UserRow :=
    match found with
    | some _ => db.users
    | none => db.users ++ [user]
  let nextUid : Nat :=
    match found with
    | some _ => db.next_user_id
    | none => db.next_user_id + 1
  let out := processRepos user.id repos_data db.repos [] db.next_repo_id
  let pruned := out.dbRepos.filter
    (fun r => !(r.user_id == user.id && !(out.ids.contains r.github_id)))
  let users2 := users1.map
    (fun x => if x.id == user.id then { x with last_synced_at := some now } else x)
  let finalRepos := pruned ++ out.pending
  let userRows := finalRepos.filter (fun r => r.user_id == user.id)
  if (userRows.all fun r => r.name.isSome && r.html_url.isSome)
      && nodupKeys (userRows.map fun r => r.github_id) then
    let dbNew : Store :=
      { users := users2, repos := finalRepos
        next_user_id := nextUid, next_repo_id := out.nextId }
    let sorted := (dbNew.repos.filter fun r => r.user_id == user.id).mergeSort
      (fun a b => decide (a.name.getD "" ≤ b.name.getD ""))
    Except.ok (dbNew,
      { username := user.username
        status := if is_new then "new" else "updated"
        is_new := is_new
        repositories := sorted.map RepositoryBase.from_orm })
  else
    Except.error StoreError.integrityError

/-- The surrogate id under which `upsert_user_and_repos db username _ _`
processes `username`: the id of the stored user, or the fresh id it is
about to receive. -/
def syncUserId (db : Store) (username : String) : Nat :=
  match db.users.find? (fun x => x.username == username) with
  | some u => u.id
  | none => db.next_user_id

/-- The store as the caller sees it after `upsert_user_and_repos`:
the committed state on success, the rolled-back original on error. -/
def afterUpsert (db : Store) (username : String) (repos_data : List RepoRecord)
    (now : Nat) : Store :=
  match upsert_user_and_repos db username repos_data now with
  | Except.ok (dbNew, _) => dbNew
  | Except.error _ => db

/-- Two repository rows that do not collide on the unique key
`(user_id, github_id)`. -/
def distinctKey (r₁ r₂ : RepoRow) : Prop :=
  r₁.user_id = r₂.user_id → r₁.github_id ≠ r₂.github_id

/-- Well-formedness of a store state: the declared constraints
(`uq_user_repo`, unique usernames, primary keys) together with the id
counters bounding every allocated surrogate id.  Reachable states satisfy
this (see `upsert_preserves_WF`). -/
def Store.WF (s : Store) : Prop :=
  s.repos.Pairwise distinctKey ∧
  (∀ r ∈ s.repos, r.id < s.next_repo_id) ∧
  (∀ u ∈ s.users, u.id < s.next_user_id) ∧
  s.users.Pairwise (fun u₁ u₂ => u₁.username ≠ u₂.username) ∧
  s.users.Pairwise (fun u₁ u₂ => u₁.id ≠ u₂.id)

/-- The external ids of the identifier-bearing records of a fetched list
(the `github_repo_ids` accumulated by a full run of the loop). -/
def validIds (l : List RepoRecord) : List Int :=
  l.filterMap RepoRecord.id

/-- The empty store a fresh database starts from. -/
def emptyStore : Store :=
  { users := [], repos := [], next_user_id := 1, next_repo_id := 1 }

/-- Errors of the fetch adapter `fetch_github_repos`, raised as
`HTTPException`s: 404 user-not-found, 502 upstream error / bad shape. -/
inductive FetchError where
  | notFound
  | upstream (code : Nat)
  | badShape
deriving Repr, DecidableEq

/-- `refresh_user` from `main.py`: fetch, then reconcile; `HTTPException`s
from the fetch are caught and logged, store failures are not caught.  The
fetch boundary is an oracle `fetch` from usernames to outcomes. -/
def refresh_user (fetch : String → Except FetchError (List RepoRecord)) (now : Nat)
    (db : Store) (username : String) : Except StoreError Store :=
  match fetch username with
  | Except.error _ => Except.ok db
  | Except.ok repos_data =>
    match upsert_user_and_repos db username repos_data now with
    | Except.ok (dbNew, _) => Except.ok dbNew
    | Except.error e => Except.error e

/-- The iteration of `refresh_all_users` over the snapshot of usernames:
each username is processed in its own session against the current store;
a store failure propagates and aborts the remaining iterations. -/
def refreshLoop (fetch : String → Except FetchError (List RepoRecord)) (now : Nat) :
    List String → Store → Except StoreError Store
  | [], db => Except.ok db
  | username :: rest, db =>
    match refresh_user fetch now db username with
    | Except.ok dbNew => refreshLoop fetch now rest dbNew
    | Except.error e => Except.error e

/-- `refresh_all_users` from `main.py`: snapshot all usernames, then
sequentially fetch and reconcile each one. -/
def refresh_all_users (fetch : String → Except FetchError (List RepoRecord)) (now : Nat)
    (db : Store) : Except StoreError Store :=
  refreshLoop fetch now (db.users.map (fun u => u.username)) db

/-! ### Net-effect characterization of the loop

The existence query of the loop only consults the committed rows, whose
`(user_id, github_id)` keys never change during the loop; hence which
branch a record takes depends only on the original store.  The functions
below express the loop's net effect and are proved equal to `processRepos`
in `processRepos_eq`. -/

/-- Overwrite the fields of `r` if it is the row keyed `(uid, gid)`. -/
def updOne (uid : Nat) (gid : Int) (rec : RepoRecord) (r : RepoRow) : RepoRow :=
  if r.user_id == uid && r.github_id == gid then applyFields rec r else r

/-- The effect of one record on one committed row. -/
def stepRow (uid : Nat) (rec : RepoRecord) (r : RepoRow) : RepoRow :=
  match rec.id with
  | none => r
  | some gid => updOne uid gid rec r

/-- The accumulated effect of the record list on one committed row. -/
def rowAfter (uid : Nat) (recs : List RepoRecord) (r : RepoRow) : RepoRow :=
  recs.foldl (fun acc rec => stepRow uid rec acc) r

/-- The external ids of the rows of user `uid` among `d`. -/
def userKeys (uid : Nat) (d : List RepoRow) : List Int :=
  (d.filter fun r => r.user_id == uid).map (fun r => r.github_id)

/-- The pending rows the loop adds: one per identifier-bearing record whose
id matches no committed row of the user, with consecutive surrogate ids. -/
def insertedRows (uid : Nat) (dKeys : List Int) : List RepoRecord → Nat → List RepoRow
  | [], _ => []
  | rec :: rest, n =>
    match rec.id with
    | none => insertedRows uid dKeys rest n
    | some gid =>
      if dKeys.contains gid then insertedRows uid dKeys rest n
      else ⟨n, uid, gid, rec.name, rec.html_url, rec.description, rec.language⟩ ::
        insertedRows uid dKeys rest (n + 1)

/-- The committed rows surviving the prune pass, with updates applied. -/
def keptRows (uid : Nat) (l : List RepoRecord) (d : List RepoRow) : List RepoRow :=
  (d.map (rowAfter uid l)).filter
    (fun r => !(r.user_id == uid && !((validIds l).contains r.github_id)))

/-- The full repository table after a successful reconcile of user `uid`
with list `l` against store `s`. -/
def netRepos (uid : Nat) (s : Store) (l : List RepoRecord) : List RepoRow :=
  keptRows uid l s.repos ++ insertedRows uid (userKeys uid s.repos) l s.next_repo_id

/-- The commit-time constraint check on the rows flushed for user `uid`. -/
def commitChk (uid : Nat) (rows : List RepoRow) : Bool :=
  let userRows := rows.filter (fun r => r.user_id == uid)
  (userRows.all fun r => r.name.isSome && r.html_url.isSome)
    && nodupKeys (userRows.map fun r => r.github_id)

/-- The user looked up by `upsert_user_and_repos`. -/
def foundUser (s : Store) (username : String) : Option UserRow :=
  s.users.find? (fun x => x.username == username)

/-- The `users` table after a successful reconcile. -/
def usersAfter (s : Store) (username : String) (now : Nat) : List UserRow :=
  let base : List UserRow :=
    match foundUser s username with
    | some _ => s.users
    | none => s.users ++ [⟨s.next_user_id, username, none⟩]
  base.map (fun x =>
    if x.id == syncUserId s username then { x with last_synced_at := some now } else x)

/-- The user-id counter after a successful reconcile. -/
def nextUidAfter (s : Store) (username : String) : Nat :=
  match foundUser s username with
  | some _ => s.next_user_id
  | none => s.next_user_id + 1

/-- The committed store after a successful reconcile. -/
def netStore (s : Store) (u : String) (l : List RepoRecord) (now : Nat) : Store :=
  { users := usersAfter s u now
    repos := netRepos (syncUserId s u) s l
    next_user_id := nextUidAfter s u
    next_repo_id := s.next_repo_id +
      (insertedRows (syncUserId s u) (userKeys (syncUserId s u) s.repos) l s.next_repo_id).length }

/-- The response of a successful reconcile. -/
def netResp (s : Store) (u : String) (l : List RepoRecord) : UserSyncResponse :=
  { username := match foundUser s u with | some x => x.username | none => u
    status := if (foundUser s u).isNone then "new" else "updated"
    is_new := (foundUser s u).isNone
    repositories := (((netRepos (syncUserId s u) s l).filter
        (fun r => r.user_id == syncUserId s u)).mergeSort
        (fun a b => decide (a.name.getD "" ≤ b.name.getD ""))).map RepositoryBase.from_orm }

/-! ### Concrete data for witnesses and counterexamples -/

/-- A fetched record named "zeta" with external id 11. -/
def recZeta : RepoRecord := ⟨some 11, some "zeta", some "hz", none, some "Python"⟩

/-- A fetched record named "alpha" with external id 12. -/
def recAlpha : RepoRecord := ⟨some 12, some "alpha", some "ha", some "docs", none⟩

/-- A fetched record named "mid" with external id 13. -/
def recMid : RepoRecord := ⟨some 13, some "mid", some "hm", none, none⟩

/-- A malformed fetched record lacking the external identifier. -/
def recNoId : RepoRecord := ⟨none, some "ghost", some "hg", none, none⟩

/-- A fetched record with an external identifier but no name. -/
def recNoName : RepoRecord := ⟨some 14, none, some "hn", none, none⟩

/-- The record with external id 12 after a rename. -/
def recAlphaRenamed : RepoRecord := ⟨some 12, some "omega", some "ha", some "docs", none⟩

/-- The store after syncing "alice" with three records into the empty
store. -/
def storeAlice : Store := afterUpsert emptyStore "alice" [recZeta, recAlpha, recMid] 5

/-- A fetch oracle for which every username fails with a 404. -/
def fetchAll404 : String → Except FetchError (List RepoRecord) :=
  fun _ => Except.error FetchError.notFound

/-- The last record of the list carrying the external id `gid`
(last-write-wins: this is the record whose fields the stored row ends up
with). -/
def lastMatch (gid : Int) : List RepoRecord → Option RepoRecord
  | [] => none
  | rec :: rest =>
    match lastMatch gid rest with
    | some r => some r
    | none => if rec.id == some gid then some rec else none

instance (a b : RepoRow) : Decidable (distinctKey a b) :=
  show Decidable (a.user_id = b.user_id → a.github_id ≠ b.github_id) from inferInstance

instance (s : Store) : Decidable s.WF :=
  show Decidable (_ ∧ _ ∧ _ ∧ _ ∧ _) from inferInstance

/-- Projection of a successful sync result onto the response (placeholder
response on error). -/
def respOf (e : Except StoreError (Store × UserSyncResponse)) : UserSyncResponse :=
  match e with
  | Except.ok x => x.2
  | Except.error _ => ⟨"", "", false, []⟩

/-- The response of the first "alice" sync from the empty store. -/
def respAlice : UserSyncResponse :=
  respOf (upsert_user_and_repos emptyStore "alice" [recZeta, recAlpha, recMid] 5)

/-- The second fetched list for "alice": same external ids, repo 12
renamed. -/
def renamedList : List RepoRecord := [recZeta, recAlphaRenamed, recMid]

/-- The store after reconciling "alice" a second time with the renamed
list. -/
def storeRenamed : Store := afterUpsert storeAlice "alice" renamedList 7

/-- The response of that second reconcile. -/
def respRenamed : UserSyncResponse :=
  respOf (upsert_user_and_repos storeAlice "alice" renamedList 7)

/-- A fetched record of user "bob". -/
def recBob : RepoRecord := ⟨some 21, some "bobrepo", some "hb", none, none⟩

/-- The store holding both "alice" and "bob". -/
def storeAB : Store := afterUpsert storeAlice "bob" [recBob] 6

/-- The user row of "bob" inside storeAB. -/
def bobRow : UserRow := ⟨2, "bob", some 6⟩

/-! ### Basic lemmas about the loop primitives -/

theorem updOne_user_id (uid : Nat) (gid : Int) (rec : RepoRecord) (r : RepoRow) :
    (updOne uid gid rec r).user_id = r.user_id := by
  unfold updOne; split <;> rfl

theorem updOne_github_id (uid : Nat) (gid : Int) (rec : RepoRecord) (r : RepoRow) :
    (updOne uid gid rec r).github_id = r.github_id := by
  unfold updOne; split <;> rfl

theorem updOne_id (uid : Nat) (gid : Int) (rec : RepoRecord) (r : RepoRow) :
    (updOne uid gid rec r).id = r.id := by
  unfold updOne; split <;> rfl

theorem stepRow_user_id (uid : Nat) (rec : RepoRecord) (r : RepoRow) :
    (stepRow uid rec r).user_id = r.user_id := by
  unfold stepRow; cases rec.id
  · rfl
  · exact updOne_user_id _ _ _ _

theorem stepRow_github_id (uid : Nat) (rec : RepoRecord) (r : RepoRow) :
    (stepRow uid rec r).github_id = r.github_id := by
  unfold stepRow; cases rec.id
  · rfl
  · exact updOne_github_id _ _ _ _

theorem stepRow_id (uid : Nat) (rec : RepoRecord) (r : RepoRow) :
    (stepRow uid rec r).id = r.id := by
  unfold stepRow; cases rec.id
  · rfl
  · exact updOne_id _ _ _ _

theorem rowAfter_nil (uid : Nat) (r : RepoRow) : rowAfter uid [] r = r := rfl

theorem rowAfter_cons (uid : Nat) (rec : RepoRecord) (rest : List RepoRecord) (r : RepoRow) :
    rowAfter uid (rec :: rest) r = rowAfter uid rest (stepRow uid rec r) := rfl

theorem rowAfter_user_id (uid : Nat) (recs : List RepoRecord) (r : RepoRow) :
    (rowAfter uid recs r).user_id = r.user_id := by
  induction recs generalizing r with
  | nil => rfl
  | cons rec rest ih => rw [rowAfter_cons, ih, stepRow_user_id]

theorem rowAfter_github_id (uid : Nat) (recs : List RepoRecord) (r : RepoRow) :
    (rowAfter uid recs r).github_id = r.github_id := by
  induction recs generalizing r with
  | nil => rfl
  | cons rec rest ih => rw [rowAfter_cons, ih, stepRow_github_id]

theorem rowAfter_id (uid : Nat) (recs : List RepoRecord) (r : RepoRow) :
    (rowAfter uid recs r).id = r.id := by
  induction recs generalizing r with
  | nil => rfl
  | cons rec rest ih => rw [rowAfter_cons, ih, stepRow_id]

theorem any_key_iff (uid : Nat) (gid : Int) (d : List RepoRow) :
    (d.any fun r => r.user_id == uid && r.github_id == gid) = (userKeys uid d).contains gid := by
  rw [Bool.eq_iff_iff]
  simp only [List.any_eq_true, Bool.and_eq_true, beq_iff_eq, userKeys, List.contains,
    List.elem_iff, List.mem_map, List.mem_filter]
  constructor
  · rintro ⟨r, hr, h1, h2⟩
    exact ⟨r, ⟨hr, by simp [h1]⟩, h2⟩
  · rintro ⟨r, ⟨hr, h1⟩, h2⟩
    exact ⟨r, hr, by simpa using h1, h2⟩

theorem updateFirst_eq_map (uid : Nat) (gid : Int) (rec : RepoRecord) (d : List RepoRow)
    (h : d.Pairwise distinctKey) :
    updateFirst uid gid rec d = d.map (updOne uid gid rec) := by
  induction d with
  | nil => rfl
  | cons r rs ih =>
    rw [List.pairwise_cons] at h
    by_cases hr : (r.user_id == uid && r.github_id == gid) = true
    · have h1 : r.user_id = uid ∧ r.github_id = gid := by simpa using hr
      have htail : ∀ x ∈ rs, updOne uid gid rec x = x := by
        intro x hx
        unfold updOne
        by_cases hxm : (x.user_id == uid && x.github_id == gid) = true
        · exfalso
          have hx1 : x.user_id = uid ∧ x.github_id = gid := by simpa using hxm
          exact h.1 x hx (h1.1.trans hx1.1.symm) (h1.2.trans hx1.2.symm)
        · simp [hxm]
      have hmap : rs.map (updOne uid gid rec) = rs :=
        (List.map_congr_left htail).trans (List.map_id' rs)
      simp [updateFirst, updOne, hr, hmap]
    · simp [updateFirst, updOne, hr, ih h.2]

theorem userKeys_map_updOne (uid' uid : Nat) (gid : Int) (rec : RepoRecord) (d : List RepoRow) :
    userKeys uid' (d.map (updOne uid gid rec)) = userKeys uid' d := by
  induction d with
  | nil => rfl
  | cons r rs ih =>
    simp only [userKeys, List.map_cons, List.filter_cons, updOne_user_id] at *
    by_cases hr : (r.user_id == uid') = true
    · simp [hr, updOne_github_id, ih]
    · simp [hr, ih]

theorem pairwise_map_updOne (uid : Nat) (gid : Int) (rec : RepoRecord) (d : List RepoRow)
    (h : d.Pairwise distinctKey) :
    (d.map (updOne uid gid rec)).Pairwise distinctKey := by
  rw [List.pairwise_map]
  refine h.imp ?_
  intro a b hab
  unfold distinctKey at *
  rw [updOne_user_id, updOne_user_id, updOne_github_id, updOne_github_id]
  exact hab

/-- Net-effect characterization of the per-record loop: under the unique
key constraint on the committed rows, the loop collects exactly the
identifier-bearing ids, applies `rowAfter` to every committed row, and
appends one fresh pending row per record whose id has no committed row of
the user. -/
theorem processRepos_eq (uid : Nat) (recs : List RepoRecord) :
    ∀ (d p : List RepoRow) (n : Nat), d.Pairwise distinctKey →
    processRepos uid recs d p n =
      ⟨validIds recs, d.map (rowAfter uid recs),
       p ++ insertedRows uid (userKeys uid d) recs n,
       n + (insertedRows uid (userKeys uid d) recs n).length⟩ := by
  induction recs with
  | nil =>
    intro d p n _
    show LoopOut.mk [] d p n = _
    have hmap : d.map (rowAfter uid []) = d :=
      (List.map_congr_left fun a _ => rowAfter_nil uid a).trans (List.map_id' d)
    simp [validIds, insertedRows, hmap]
  | cons rec rest ih =>
    intro d p n hd
    match hid : rec.id with
    | none =>
      have hrow : d.map (rowAfter uid (rec :: rest)) = d.map (rowAfter uid rest) := by
        apply List.map_congr_left
        intro a _
        rw [rowAfter_cons]
        simp [stepRow, hid]
      simp only [processRepos, hid, ih d p n hd, validIds, List.filterMap_cons, hrow,
        insertedRows]
    | some gid =>
      by_cases hany : (d.any fun r => r.user_id == uid && r.github_id == gid) = true
      · have hcont : (userKeys uid d).contains gid = true := by
          rw [← any_key_iff]; exact hany
        have hupd : updateFirst uid gid rec d = d.map (updOne uid gid rec) :=
          updateFirst_eq_map uid gid rec d hd
        have ihm := ih (d.map (updOne uid gid rec)) p n (pairwise_map_updOne uid gid rec d hd)
        have hrow : (d.map (updOne uid gid rec)).map (rowAfter uid rest) =
            d.map (rowAfter uid (rec :: rest)) := by
          rw [List.map_map]
          apply List.map_congr_left
          intro a _
          show rowAfter uid rest (updOne uid gid rec a) = rowAfter uid (rec :: rest) a
          rw [rowAfter_cons]
          simp [stepRow, hid]
        simp only [processRepos, hid, hany, if_true, hupd, ihm,
          userKeys_map_updOne, hrow]
        simp only [validIds, List.filterMap_cons, hid, insertedRows, hcont, if_true]
      · have hany' : (d.any fun r => r.user_id == uid && r.github_id == gid) = false :=
          Bool.eq_false_iff.mpr hany
        have hcont : (userKeys uid d).contains gid = false := by
          rw [← any_key_iff]; exact hany'
        have hnomatch : ∀ a ∈ d, updOne uid gid rec a = a := by
          intro a ha
          have := (List.any_eq_false.mp hany') a ha
          unfold updOne
          simp only [Bool.not_eq_true] at this
          simp [this]
        have hrow : d.map (rowAfter uid rest) = d.map (rowAfter uid (rec :: rest)) := by
          apply List.map_congr_left
          intro a ha
          rw [rowAfter_cons]
          simp [stepRow, hid, hnomatch a ha]
        simp only [processRepos, hid, hany', Bool.false_eq_true, if_false,
          ih d _ (n + 1) hd, hrow]
        have hmem : ¬ gid ∈ userKeys uid d := by simpa using hcont
        simp [validIds, List.filterMap_cons, hid, insertedRows, hcont, hmem,
          List.append_assoc, List.singleton_append, LoopOut.mk.injEq]
        omega

/-- `upsert_user_and_repos` in net form: under the unique-key constraint on
the starting rows it either commits `netStore` and returns `netResp`, or
fails the constraint check and raises with nothing applied. -/
theorem upsert_eq_net (s : Store) (u : String) (l : List RepoRecord) (now : Nat)
    (hpw : s.repos.Pairwise distinctKey) :
    upsert_user_and_repos s u l now =
      if commitChk (syncUserId s u) (netRepos (syncUserId s u) s l) then
        Except.ok (netStore s u l now, netResp s u l)
      else Except.error StoreError.integrityError := by
  cases hf : s.users.find? (fun x => x.username == u) with
  | some u0 =>
    have hloop := processRepos_eq u0.id l s.repos [] s.next_repo_id hpw
    have hsync : syncUserId s u = u0.id := by simp [syncUserId, hf]
    simp only [upsert_user_and_repos, hf, hloop, List.nil_append, hsync,
      netStore, netResp, netRepos, keptRows, usersAfter, nextUidAfter, foundUser,
      commitChk, Option.isNone_some]
  | none =>
    have hloop := processRepos_eq s.next_user_id l s.repos [] s.next_repo_id hpw
    have hsync : syncUserId s u = s.next_user_id := by simp [syncUserId, hf]
    simp only [upsert_user_and_repos, hf, hloop, List.nil_append, hsync,
      netStore, netResp, netRepos, keptRows, usersAfter, nextUidAfter, foundUser,
      commitChk, Option.isNone_none]

/-! ### Membership and uniqueness lemmas -/

theorem nodupKeys_iff (xs : List Int) : nodupKeys xs = true ↔ xs.Nodup := by
  induction xs with
  | nil => simp [nodupKeys]
  | cons x rest ih => simp [nodupKeys, List.nodup_cons, ih]

theorem mem_userKeys (uid : Nat) (d : List RepoRow) (gid : Int) :
    gid ∈ userKeys uid d ↔ ∃ r ∈ d, r.user_id = uid ∧ r.github_id = gid := by
  simp only [userKeys, List.mem_map, List.mem_filter, beq_iff_eq]
  constructor
  · rintro ⟨r, ⟨hr, h1⟩, h2⟩
    exact ⟨r, hr, h1, h2⟩
  · rintro ⟨r, hr, h1, h2⟩
    exact ⟨r, ⟨hr, h1⟩, h2⟩

theorem validIds_cons_none (rec : RepoRecord) (rest : List RepoRecord)
    (h : rec.id = none) : validIds (rec :: rest) = validIds rest := by
  simp [validIds, List.filterMap_cons, h]

theorem validIds_cons_some (rec : RepoRecord) (rest : List RepoRecord) (gid : Int)
    (h : rec.id = some gid) : validIds (rec :: rest) = gid :: validIds rest := by
  simp [validIds, List.filterMap_cons, h]

theorem insertedRows_mem (uid : Nat) (dKeys : List Int) (recs : List RepoRecord) :
    ∀ (n : Nat) (r : RepoRow), r ∈ insertedRows uid dKeys recs n →
      r.user_id = uid ∧ r.github_id ∈ validIds recs ∧
        dKeys.contains r.github_id = false ∧ n ≤ r.id := by
  induction recs with
  | nil => intro n r hr; simp [insertedRows] at hr
  | cons rec rest ih =>
    intro n r hr
    match hid : rec.id with
    | none =>
      simp only [insertedRows, hid] at hr
      have := ih n r hr
      rw [validIds_cons_none rec rest hid]
      exact this
    | some gid =>
      simp only [insertedRows, hid] at hr
      rw [validIds_cons_some rec rest gid hid]
      by_cases hc : dKeys.contains gid = true
      · rw [if_pos hc] at hr
        have := ih n r hr
        exact ⟨this.1, List.mem_cons_of_mem _ this.2.1, this.2.2.1, this.2.2.2⟩
      · rw [if_neg hc] at hr
        rcases List.mem_cons.mp hr with h | h
        · subst h
          exact ⟨rfl, List.mem_cons_self _ _, Bool.eq_false_iff.mpr hc, Nat.le_refl n⟩
        · have := ih (n + 1) r h
          exact ⟨this.1, List.mem_cons_of_mem _ this.2.1, this.2.2.1, by omega⟩

theorem insertedRows_exists (uid : Nat) (dKeys : List Int) (recs : List RepoRecord)
    (gid : Int) (hmem : gid ∈ validIds recs) (hnot : dKeys.contains gid = false) :
    ∀ n : Nat, ∃ r ∈ insertedRows uid dKeys recs n, r.user_id = uid ∧ r.github_id = gid := by
  induction recs with
  | nil => simp [validIds] at hmem
  | cons rec rest ih =>
    intro n
    match hid : rec.id with
    | none =>
      simp only [insertedRows, hid]
      rw [validIds_cons_none rec rest hid] at hmem
      exact ih hmem n
    | some g =>
      simp only [insertedRows, hid]
      rw [validIds_cons_some rec rest g hid] at hmem
      by_cases hg : g = gid
      · subst hg
        have hcc : ¬ dKeys.contains g = true := by rw [hnot]; exact Bool.false_ne_true
        rw [if_neg hcc]
        exact ⟨_, List.mem_cons_self _ _, rfl, rfl⟩
      · have hmem' : gid ∈ validIds rest := by
          rcases List.mem_cons.mp hmem with h | h
          · exact absurd h.symm hg
          · exact h
        by_cases hc : dKeys.contains g = true
        · rw [if_pos hc]; exact ih hmem' n
        · rw [if_neg hc]
          rcases ih hmem' (n + 1) with ⟨r, hr, h1, h2⟩
          exact ⟨r, List.mem_cons_of_mem _ hr, h1, h2⟩

theorem insertedRows_eq_nil (uid : Nat) (dKeys : List Int) (recs : List RepoRecord)
    (h : ∀ gid ∈ validIds recs, dKeys.contains gid = true) :
    ∀ n : Nat, insertedRows uid dKeys recs n = [] := by
  induction recs with
  | nil => intro n; rfl
  | cons rec rest ih =>
    intro n
    match hid : rec.id with
    | none =>
      simp only [insertedRows, hid]
      exact ih (fun gid hg => h gid (by rw [validIds_cons_none rec rest hid]; exact hg)) n
    | some g =>
      simp only [insertedRows, hid]
      have hg : dKeys.contains g = true :=
        h g (by rw [validIds_cons_some rec rest g hid]; exact List.mem_cons_self _ _)
      rw [if_pos hg]
      exact ih (fun gid hgid => h gid (by
        rw [validIds_cons_some rec rest g hid]
        exact List.mem_cons_of_mem _ hgid)) n

theorem rowAfter_not_user (uid : Nat) (recs : List RepoRecord) (r : RepoRow)
    (h : (r.user_id == uid) = false) : rowAfter uid recs r = r := by
  induction recs with
  | nil => rfl
  | cons rec rest ih =>
    rw [rowAfter_cons]
    have hstep : stepRow uid rec r = r := by
      unfold stepRow
      cases rec.id with
      | none => rfl
      | some g => unfold updOne; simp [h]
    rw [hstep, ih]

theorem contains_iff (xs : List Int) (g : Int) : xs.contains g = true ↔ g ∈ xs := by
  simp [List.contains, List.elem_iff]

theorem applyFields_comp (a b : RepoRecord) (r : RepoRow) :
    applyFields b (applyFields a r) = applyFields b r := rfl

theorem applyFields_self (rec : RepoRecord) (r : RepoRow)
    (h1 : r.name = rec.name) (h2 : r.html_url = rec.html_url)
    (h3 : r.description = rec.description) (h4 : r.language = rec.language) :
    applyFields rec r = r := by
  cases r
  simp only [applyFields, RepoRow.mk.injEq, true_and]
  exact ⟨h1.symm, h2.symm, h3.symm, h4.symm⟩

theorem lastMatch_some (gid : Int) (recs : List RepoRecord) (rec : RepoRecord)
    (h : lastMatch gid recs = some rec) : gid ∈ validIds recs ∧ rec.id = some gid := by
  induction recs with
  | nil => simp [lastMatch] at h
  | cons r rest ih =>
    rw [lastMatch] at h
    cases hrest : lastMatch gid rest with
    | some r2 =>
      rw [hrest] at h
      cases h
      rcases ih hrest with ⟨hmem, hid⟩
      refine ⟨?_, hid⟩
      cases hr : r.id with
      | none => rw [validIds_cons_none r rest hr]; exact hmem
      | some g =>
        rw [validIds_cons_some r rest g hr]
        exact List.mem_cons_of_mem _ hmem
    | none =>
      rw [hrest] at h
      by_cases hb : (r.id == some gid) = true
      · rw [if_pos hb] at h
        cases h
        have hid : rec.id = some gid := by simpa using hb
        refine ⟨?_, hid⟩
        rw [validIds_cons_some rec rest gid hid]
        exact List.mem_cons_self _ _
      · rw [if_neg hb] at h
        cases h

theorem lastMatch_of_mem (gid : Int) (recs : List RepoRecord)
    (hmem : gid ∈ validIds recs) : ∃ rec, lastMatch gid recs = some rec := by
  induction recs with
  | nil => simp [validIds] at hmem
  | cons r rest ih =>
    rw [lastMatch]
    cases hrest : lastMatch gid rest with
    | some r2 => exact ⟨r2, rfl⟩
    | none =>
      cases hr : r.id with
      | none =>
        rw [validIds_cons_none r rest hr] at hmem
        rcases ih hmem with ⟨rec, hrec⟩
        rw [hrec] at hrest
        cases hrest
      | some g =>
        rw [validIds_cons_some r rest g hr] at hmem
        rcases List.mem_cons.mp hmem with h | h
        · subst h
          rw [if_pos (by simp [hr])]
          exact ⟨r, rfl⟩
        · rcases ih h with ⟨rec, hrec⟩
          rw [hrec] at hrest
          cases hrest

theorem rowAfter_lastMatch (uid : Nat) (recs : List RepoRecord) :
    ∀ r : RepoRow, r.user_id = uid →
    rowAfter uid recs r =
      (match lastMatch r.github_id recs with
       | some rec => applyFields rec r
       | none => r) := by
  induction recs with
  | nil => intro r _; rfl
  | cons rec rest ih =>
    intro r hu
    rw [rowAfter_cons, lastMatch]
    by_cases hm : (rec.id == some r.github_id) = true
    · have hgid : rec.id = some r.github_id := by simpa using hm
      have hstep : stepRow uid rec r = applyFields rec r := by
        simp [stepRow, hgid, updOne, hu]
      rw [hstep]
      have hu' : (applyFields rec r).user_id = uid := hu
      have hg' : (applyFields rec r).github_id = r.github_id := rfl
      rw [ih (applyFields rec r) hu', hg']
      cases hrest : lastMatch r.github_id rest with
      | some r2 => simp [applyFields_comp]
      | none => simp [hm]
    · have hstep : stepRow uid rec r = r := by
        unfold stepRow
        cases hg : rec.id with
        | none => rfl
        | some g =>
          unfold updOne
          have hne : r.github_id ≠ g := by
            intro hq
            apply hm
            rw [hg, hq]
            simp
          simp [hne]
      rw [hstep, ih r hu]
      cases hrest : lastMatch r.github_id rest with
      | some r2 => rfl
      | none => simp [hm]

theorem netRepos_user_contains (uid : Nat) (s : Store) (l : List RepoRecord) :
    ∀ r ∈ netRepos uid s l, r.user_id = uid → (validIds l).contains r.github_id = true := by
  intro r hr hu
  rcases List.mem_append.mp hr with hk | hi
  · rcases List.mem_filter.mp hk with ⟨_, hpr⟩
    by_cases hc : ((validIds l).contains r.github_id) = true
    · exact hc
    · exfalso
      have hc' : ((validIds l).contains r.github_id) = false := Bool.eq_false_iff.mpr hc
      rw [hu] at hpr
      simp [hc'] at hpr
      exact hc ((contains_iff _ _).mpr hpr)
  · have := insertedRows_mem uid (userKeys uid s.repos) l s.next_repo_id r hi
    exact (contains_iff _ _).mpr this.2.1

theorem netRepos_keys (uid : Nat) (s : Store) (l : List RepoRecord) (gid : Int) :
    (∃ r ∈ netRepos uid s l, r.user_id = uid ∧ r.github_id = gid) ↔ gid ∈ validIds l := by
  constructor
  · rintro ⟨r, hr, hu, hg⟩
    have := netRepos_user_contains uid s l r hr hu
    rw [hg] at this
    exact (contains_iff _ _).mp this
  · intro hmem
    by_cases hc : (userKeys uid s.repos).contains gid = true
    · have hmem0 : gid ∈ userKeys uid s.repos := (contains_iff _ _).mp hc
      rcases (mem_userKeys uid s.repos gid).mp hmem0 with ⟨r0, hr0, hu0, hg0⟩
      refine ⟨rowAfter uid l r0, ?_, ?_, ?_⟩
      · apply List.mem_append.mpr
        left
        apply List.mem_filter.mpr
        refine ⟨List.mem_map_of_mem _ hr0, ?_⟩
        rw [rowAfter_user_id, rowAfter_github_id, hg0, hu0]
        simp [hmem]
      · rw [rowAfter_user_id]; exact hu0
      · rw [rowAfter_github_id]; exact hg0
    · have hc' : (userKeys uid s.repos).contains gid = false := Bool.eq_false_iff.mpr hc
      rcases insertedRows_exists uid (userKeys uid s.repos) l gid hmem hc' s.next_repo_id
        with ⟨r, hr, h1, h2⟩
      exact ⟨r, List.mem_append.mpr (Or.inr hr), h1, h2⟩

theorem commitChk_parts (uid : Nat) (rows : List RepoRow) (h : commitChk uid rows = true) :
    (∀ r ∈ rows.filter (fun r => r.user_id == uid),
        r.name.isSome = true ∧ r.html_url.isSome = true) ∧
    ((rows.filter (fun r => r.user_id == uid)).map (fun r => r.github_id)).Nodup := by
  unfold commitChk at h
  rw [Bool.and_eq_true] at h
  rcases h with ⟨h1, h2⟩
  constructor
  · intro r hr
    have := List.all_eq_true.mp h1 r hr
    rw [Bool.and_eq_true] at this
    exact this
  · exact (nodupKeys_iff _).mp h2

theorem userRows_netRepos (uid : Nat) (s : Store) (l : List RepoRecord) :
    (netRepos uid s l).filter (fun r => r.user_id == uid) =
      (keptRows uid l s.repos).filter (fun r => r.user_id == uid) ++
      insertedRows uid (userKeys uid s.repos) l s.next_repo_id := by
  rw [netRepos, List.filter_append]
  congr 1
  rw [List.filter_eq_self]
  intro r hr
  have := insertedRows_mem uid _ l _ r hr
  simp [this.1]

theorem netRepos_pairwise (uid : Nat) (s : Store) (l : List RepoRecord)
    (hpw : s.repos.Pairwise distinctKey)
    (hchk : commitChk uid (netRepos uid s l) = true) :
    (netRepos uid s l).Pairwise distinctKey := by
  have hnodup : ((netRepos uid s l).filter (fun r => r.user_id == uid)).Pairwise
      (fun a b => a.github_id ≠ b.github_id) :=
    List.pairwise_map.mp (commitChk_parts uid _ hchk).2
  rw [userRows_netRepos] at hnodup
  have hsplit := List.pairwise_append.mp hnodup
  apply List.pairwise_append.mpr
  refine ⟨?_, ?_, ?_⟩
  · apply List.Pairwise.sublist (List.filter_sublist _)
    rw [List.pairwise_map]
    refine hpw.imp ?_
    intro a b hab
    unfold distinctKey at *
    rw [rowAfter_user_id, rowAfter_user_id, rowAfter_github_id, rowAfter_github_id]
    exact hab
  · refine hsplit.2.1.imp ?_
    intro a b hab
    exact fun _ => hab
  · intro a ha b hb
    intro hu
    have hbu : b.user_id = uid := (insertedRows_mem uid _ l _ b hb).1
    have hau : a.user_id = uid := hu.trans hbu
    have ha' : a ∈ (keptRows uid l s.repos).filter (fun r => r.user_id == uid) :=
      List.mem_filter.mpr ⟨ha, by simp [hau]⟩
    exact hsplit.2.2 a ha' b hb

theorem insertedRows_fields (uid : Nat) (dKeys : List Int) (recs : List RepoRecord) :
    ∀ n : Nat,
    ((insertedRows uid dKeys recs n).map (fun r => r.github_id)).Nodup →
    ∀ r ∈ insertedRows uid dKeys recs n,
      ∃ rec, lastMatch r.github_id recs = some rec ∧ r.name = rec.name ∧
        r.html_url = rec.html_url ∧ r.description = rec.description ∧
        r.language = rec.language := by
  induction recs with
  | nil => intro n _ r hr; simp [insertedRows] at hr
  | cons rec rest ih =>
    intro n hnd r hr
    match hid : rec.id with
    | none =>
      simp only [insertedRows, hid] at hnd hr
      rcases ih n hnd r hr with ⟨rec2, hl, hf⟩
      refine ⟨rec2, ?_, hf⟩
      rw [lastMatch, hl]
    | some g =>
      simp only [insertedRows, hid] at hnd hr
      by_cases hc : dKeys.contains g = true
      · rw [if_pos hc] at hnd hr
        rcases ih n hnd r hr with ⟨rec2, hl, hf⟩
        refine ⟨rec2, ?_, hf⟩
        rw [lastMatch, hl]
      · rw [if_neg hc] at hnd hr
        rw [List.map_cons] at hnd
        have hnd' := List.nodup_cons.mp hnd
        rcases List.mem_cons.mp hr with h | h
        · subst h
          refine ⟨rec, ?_, rfl, rfl, rfl, rfl⟩
          rw [lastMatch]
          cases hrest : lastMatch g rest with
          | none => simp [hid]
          | some r2 =>
            exfalso
            have hmem : g ∈ validIds rest := (lastMatch_some g rest r2 hrest).1
            have hc' : dKeys.contains g = false := Bool.eq_false_iff.mpr hc
            rcases insertedRows_exists uid dKeys rest g hmem hc' (n + 1) with ⟨r3, hr3, _, hg3⟩
            have hmm : g ∈ (insertedRows uid dKeys rest (n + 1)).map
                (fun r => r.github_id) := by
              have := List.mem_map_of_mem (fun r => r.github_id) hr3
              simpa [hg3] using this
            exact hnd'.1 hmm
        · rcases ih (n + 1) hnd'.2 r h with ⟨rec2, hl, hf⟩
          refine ⟨rec2, ?_, hf⟩
          rw [lastMatch, hl]

theorem netRepos_user_fields (uid : Nat) (s : Store) (l : List RepoRecord)
    (hchk : commitChk uid (netRepos uid s l) = true) :
    ∀ r ∈ netRepos uid s l, r.user_id = uid →
      ∃ rec, lastMatch r.github_id l = some rec ∧ r.name = rec.name ∧
        r.html_url = rec.html_url ∧ r.description = rec.description ∧
        r.language = rec.language := by
  intro r hr hu
  rcases List.mem_append.mp hr with hk | hi
  · rcases List.mem_filter.mp hk with ⟨hmap, hpr⟩
    rcases List.mem_map.mp hmap with ⟨r0, hr0, hrow⟩
    have hu0 : r0.user_id = uid := by
      rw [← rowAfter_user_id uid l r0, hrow]
      exact hu
    have hg : r.github_id = r0.github_id := by rw [← hrow, rowAfter_github_id]
    have hcont : (validIds l).contains r.github_id = true :=
      netRepos_user_contains uid s l r hr hu
    have hmem : r.github_id ∈ validIds l := (contains_iff _ _).mp hcont
    rcases lastMatch_of_mem _ l hmem with ⟨rec, hrec⟩
    refine ⟨rec, hrec, ?_⟩
    have hchar := rowAfter_lastMatch uid l r0 hu0
    rw [hg] at hrec
    simp only [hrec] at hchar
    rw [← hrow, hchar]
    exact ⟨rfl, rfl, rfl, rfl⟩
  · have hnodupUser := (commitChk_parts uid _ hchk).2
    have hsub : (insertedRows uid (userKeys uid s.repos) l s.next_repo_id).Sublist
        ((netRepos uid s l).filter (fun r => r.user_id == uid)) := by
      rw [userRows_netRepos]
      exact List.sublist_append_right _ _
    have hnd : ((insertedRows uid (userKeys uid s.repos) l s.next_repo_id).map
        (fun r => r.github_id)).Nodup :=
      List.Nodup.sublist (hsub.map _) hnodupUser
    exact insertedRows_fields uid _ l s.next_repo_id hnd r hi

/-! ### Inversion of the upsert result and user-table lemmas -/

theorem upsert_ok_inv (s : Store) (u : String) (l : List RepoRecord) (now : Nat)
    (s' : Store) (resp : UserSyncResponse) (hpw : s.repos.Pairwise distinctKey)
    (h : upsert_user_and_repos s u l now = Except.ok (s', resp)) :
    commitChk (syncUserId s u) (netRepos (syncUserId s u) s l) = true ∧
    s' = netStore s u l now ∧ resp = netResp s u l := by
  rw [upsert_eq_net s u l now hpw] at h
  by_cases hchk : commitChk (syncUserId s u) (netRepos (syncUserId s u) s l) = true
  · rw [if_pos hchk] at h
    simp only [Except.ok.injEq, Prod.mk.injEq] at h
    exact ⟨hchk, h.1.symm, h.2.symm⟩
  · rw [if_neg hchk] at h
    simp at h

theorem upsert_ok_of_chk (s : Store) (u : String) (l : List RepoRecord) (now : Nat)
    (hpw : s.repos.Pairwise distinctKey)
    (hchk : commitChk (syncUserId s u) (netRepos (syncUserId s u) s l) = true) :
    upsert_user_and_repos s u l now = Except.ok (netStore s u l now, netResp s u l) := by
  rw [upsert_eq_net s u l now hpw, if_pos hchk]

theorem upsert_error_of_chk (s : Store) (u : String) (l : List RepoRecord) (now : Nat)
    (hpw : s.repos.Pairwise distinctKey)
    (hchk : commitChk (syncUserId s u) (netRepos (syncUserId s u) s l) = false) :
    upsert_user_and_repos s u l now = Except.error StoreError.integrityError := by
  rw [upsert_eq_net s u l now hpw, if_neg (by rw [hchk]; exact Bool.false_ne_true)]

theorem find?_map_username (f : UserRow → UserRow)
    (hf : ∀ x, (f x).username = x.username) (l : List UserRow) (u : String) :
    (l.map f).find? (fun x => x.username == u) =
      (l.find? (fun x => x.username == u)).map f := by
  induction l with
  | nil => rfl
  | cons x xs ih =>
    rw [List.map_cons]
    by_cases hx : (x.username == u) = true
    · rw [@List.find?_cons_of_pos _ (fun y => y.username == u) (f x) (xs.map f)
          (by show ((f x).username == u) = true; rw [hf]; exact hx),
        @List.find?_cons_of_pos _ (fun y => y.username == u) x xs hx]
      rfl
    · rw [@List.find?_cons_of_neg _ (fun y => y.username == u) (f x) (xs.map f)
          (by show ¬ ((f x).username == u) = true; rw [hf]; exact hx),
        @List.find?_cons_of_neg _ (fun y => y.username == u) x xs hx, ih]

theorem usersAfter_find (s : Store) (u : String) (now : Nat) :
    ∃ w, (usersAfter s u now).find? (fun x => x.username == u) = some w ∧
      w.id = syncUserId s u ∧ w.username = u ∧ w.last_synced_at = some now := by
  have htouch : ∀ x : UserRow,
      ((fun x : UserRow => if x.id == syncUserId s u
        then { x with last_synced_at := some now } else x) x).username = x.username := by
    intro x
    by_cases hx : (x.id == syncUserId s u) = true
    · simp [hx]
    · simp [hx]
  cases hf : s.users.find? (fun x => x.username == u) with
  | some u0 =>
    have hbase : usersAfter s u now = s.users.map
        (fun x : UserRow => if x.id == syncUserId s u
          then { x with last_synced_at := some now } else x) := by
      simp only [usersAfter, foundUser, hf]
    have hsync : syncUserId s u = u0.id := by unfold syncUserId; rw [hf]
    rw [hbase, find?_map_username _ htouch, hf, Option.map_some']
    have hu0name : u0.username = u := by
      have := List.find?_some hf
      simpa using this
    refine ⟨_, rfl, ?_, ?_, ?_⟩
    · rw [hsync]
      simp
    · by_cases hx : (u0.id == syncUserId s u) = true
      · simp only [hx, if_true]
        exact hu0name
      · simp only [hx, if_false]
        exact hu0name
    · rw [hsync]
      simp
  | none =>
    have hbase : usersAfter s u now =
        (s.users ++ [(⟨s.next_user_id, u, none⟩ : UserRow)]).map
          (fun x : UserRow => if x.id == syncUserId s u
            then { x with last_synced_at := some now } else x) := by
      simp only [usersAfter, foundUser, hf]
    have hsync : syncUserId s u = s.next_user_id := by unfold syncUserId; rw [hf]
    have happ : (s.users ++ [(⟨s.next_user_id, u, none⟩ : UserRow)]).find?
        (fun x => x.username == u) = some (⟨s.next_user_id, u, none⟩ : UserRow) := by
      rw [List.find?_append, hf]
      simp
    rw [hbase, find?_map_username _ htouch, happ, Option.map_some']
    refine ⟨_, rfl, ?_, ?_, ?_⟩
    · rw [hsync]
      simp
    · by_cases hx : ((⟨s.next_user_id, u, none⟩ : UserRow).id == syncUserId s u) = true
      · simp [hx]
      · simp [hx]
    · rw [hsync]
      simp

/-! ### Claim theorems -/

/-- C1: after a successful reconcile, the set of external ids of the
repository rows stored for the user equals exactly the set of external ids
of the identifier-bearing records of the input list; rows outside that set
are deleted, and with an empty valid set all of the user's repositories are
deleted. -/
theorem c1_reconcile_exact_keys (s : Store) (u : String) (l : List RepoRecord) (now : Nat)
    (s' : Store) (resp : UserSyncResponse) (hwf : s.WF)
    (h : upsert_user_and_repos s u l now = Except.ok (s', resp)) :
    ∀ gid : Int, (∃ r ∈ s'.repos, r.user_id = syncUserId s u ∧ r.github_id = gid) ↔
      gid ∈ validIds l := by
  rcases upsert_ok_inv s u l now s' resp hwf.1 h with ⟨_, hs, _⟩
  subst hs
  intro gid
  exact netRepos_keys (syncUserId s u) s l gid

/-- Witness for C1 at a concrete input: syncing "alice" into the empty
store stores external id 11. -/
theorem c1_reconcile_exact_keys_witness :
    (∃ r ∈ storeAlice.repos, r.user_id = syncUserId emptyStore "alice" ∧
      r.github_id = 11) ↔ (11 : Int) ∈ validIds [recZeta, recAlpha, recMid] :=
  c1_reconcile_exact_keys emptyStore "alice" [recZeta, recAlpha, recMid] 5
    storeAlice respAlice (by decide) rfl 11

/-- C2: the reconcile transaction is atomic — either the store rejects it
and the caller sees the error with the store unchanged, or the whole
operation (user row with updated last_synced_at, repository upserts and
prune) is committed together. -/
theorem c2_atomic (s : Store) (u : String) (l : List RepoRecord) (now : Nat)
    (hwf : s.WF) :
    (∃ e, upsert_user_and_repos s u l now = Except.error e ∧ afterUpsert s u l now = s) ∨
    (∃ s' resp, upsert_user_and_repos s u l now = Except.ok (s', resp) ∧
      afterUpsert s u l now = s' ∧
      (∃ usr ∈ s'.users, usr.username = u ∧ usr.last_synced_at = some now) ∧
      (∀ gid : Int, (∃ r ∈ s'.repos, r.user_id = syncUserId s u ∧ r.github_id = gid) ↔
        gid ∈ validIds l)) := by
  by_cases hchk : commitChk (syncUserId s u) (netRepos (syncUserId s u) s l) = true
  · right
    refine ⟨netStore s u l now, netResp s u l,
      upsert_ok_of_chk s u l now hwf.1 hchk, ?_, ?_, ?_⟩
    · unfold afterUpsert
      rw [upsert_ok_of_chk s u l now hwf.1 hchk]
    · rcases usersAfter_find s u now with ⟨w, hw, _, hwname, hwts⟩
      exact ⟨w, List.mem_of_find?_eq_some hw, hwname, hwts⟩
    · intro gid
      exact netRepos_keys (syncUserId s u) s l gid
  · left
    have he := upsert_error_of_chk s u l now hwf.1 (Bool.eq_false_iff.mpr hchk)
    refine ⟨StoreError.integrityError, he, ?_⟩
    unfold afterUpsert
    rw [he]

/-- Witness for C2 at a concrete input. -/
theorem c2_atomic_witness :
    (∃ e, upsert_user_and_repos emptyStore "alice" [recZeta] 5 = Except.error e ∧
      afterUpsert emptyStore "alice" [recZeta] 5 = emptyStore) ∨
    (∃ s' resp, upsert_user_and_repos emptyStore "alice" [recZeta] 5 =
        Except.ok (s', resp) ∧
      afterUpsert emptyStore "alice" [recZeta] 5 = s' ∧
      (∃ usr ∈ s'.users, usr.username = "alice" ∧ usr.last_synced_at = some 5) ∧
      (∀ gid : Int, (∃ r ∈ s'.repos, r.user_id = syncUserId emptyStore "alice" ∧
        r.github_id = gid) ↔ gid ∈ validIds [recZeta])) :=
  c2_atomic emptyStore "alice" [recZeta] 5 (by decide)

/-- C3: after any successful reconcile from a well-formed store, no user
has two repository rows with the same github_id — the pair
(user_id, github_id) stays unique. -/
theorem c3_unique_user_github (s : Store) (u : String) (l : List RepoRecord) (now : Nat)
    (s' : Store) (resp : UserSyncResponse) (hwf : s.WF)
    (h : upsert_user_and_repos s u l now = Except.ok (s', resp)) :
    s'.repos.Pairwise distinctKey := by
  rcases upsert_ok_inv s u l now s' resp hwf.1 h with ⟨hchk, hs, _⟩
  subst hs
  exact netRepos_pairwise (syncUserId s u) s l hwf.1 hchk

/-- Witness for C3: reconciling "alice" a second time with external id 12
renamed leaves the pairwise-unique key invariant intact. -/
theorem c3_unique_user_github_witness : storeRenamed.repos.Pairwise distinctKey :=
  c3_unique_user_github storeAlice "alice" renamedList 7 storeRenamed respRenamed
    (by decide) rfl

/-- C9: in the refresh-all job, a per-username fetch failure (user not
found upstream or an upstream error, raised as an HTTPException) is caught
and does not abort the remaining iterations: the loop continues on the
rest of the snapshot with the store untouched for that username. -/
theorem c9_fetch_failure_continues (fetch : String → Except FetchError (List RepoRecord))
    (now : Nat) (u : String) (rest : List String) (s : Store) (e : FetchError)
    (hf : fetch u = Except.error e) :
    refreshLoop fetch now (u :: rest) s = refreshLoop fetch now rest s := by
  simp [refreshLoop, refresh_user, hf]

/-- Witness for C9: with a fetch oracle that 404s, the loop skips "alice"
and continues with "bob". -/
theorem c9_fetch_failure_continues_witness :
    refreshLoop fetchAll404 0 ["alice", "bob"] emptyStore =
      refreshLoop fetchAll404 0 ["bob"] emptyStore :=
  c9_fetch_failure_continues fetchAll404 0 "alice" ["bob"] emptyStore
    FetchError.notFound rfl

/-- C10: on every successful call the response's is_new flag agrees with
the status string, and both hold exactly when the username was absent from
the store before the call. -/
theorem c10_is_new_consistent (s : Store) (u : String) (l : List RepoRecord) (now : Nat)
    (s' : Store) (resp : UserSyncResponse) (hwf : s.WF)
    (h : upsert_user_and_repos s u l now = Except.ok (s', resp)) :
    (resp.is_new = true ↔ resp.status = "new") ∧
    (resp.is_new = true ↔ ¬ ∃ x ∈ s.users, x.username = u) := by
  rcases upsert_ok_inv s u l now s' resp hwf.1 h with ⟨_, _, hr⟩
  subst hr
  unfold netResp
  cases hf : foundUser s u with
  | some u0 =>
    simp only [hf, Option.isNone_some]
    have hmem : ∃ x ∈ s.users, x.username = u := by
      refine ⟨u0, List.mem_of_find?_eq_some hf, ?_⟩
      have := List.find?_some hf
      simpa using this
    constructor
    · simp
    · simp [hmem]
  | none =>
    simp only [hf, Option.isNone_none]
    have hno : ¬ ∃ x ∈ s.users, x.username = u := by
      rintro ⟨x, hx, hxu⟩
      have := List.find?_eq_none.mp hf x hx
      simp [hxu] at this
    constructor
    · simp
    · simp [hno]

/-- Witness for C10 at a concrete input. -/
theorem c10_is_new_consistent_witness :
    (respAlice.is_new = true ↔ respAlice.status = "new") ∧
    (respAlice.is_new = true ↔ ¬ ∃ x ∈ emptyStore.users, x.username = "alice") :=
  c10_is_new_consistent emptyStore "alice" [recZeta, recAlpha, recMid] 5
    storeAlice respAlice (by decide) rfl

/-- C6: records lacking an external identifier are silently skipped — the
whole operation behaves exactly as if they were absent (so they never fail
it), and concretely a list with one identifier-less record and two valid
records creates exactly 2 repositories with no error. -/
theorem c6_skip_malformed :
    (∀ (s : Store) (u : String) (l : List RepoRecord) (now : Nat),
      upsert_user_and_repos s u l now =
        upsert_user_and_repos s u (l.filter (fun rec => rec.id.isSome)) now) ∧
    (∃ out, upsert_user_and_repos emptyStore "alice" [recNoId, recZeta, recAlpha] 3 =
      Except.ok out ∧ out.1.repos.length = 2) := by
  constructor
  · intro s u l now
    have hproc : ∀ (uid : Nat) (d p : List RepoRow) (n : Nat),
        processRepos uid (l.filter (fun rec => rec.id.isSome)) d p n =
          processRepos uid l d p n := by
      intro uid
      induction l with
      | nil => intro d p n; rfl
      | cons rec rest ih =>
        intro d p n
        cases hid : rec.id with
        | none => simp [List.filter_cons, hid, processRepos, ih]
        | some g => simp [List.filter_cons, hid, processRepos, ih]
    simp only [upsert_user_and_repos, hproc]
  · exact ⟨_, rfl, rfl⟩

/-- C7: the repository list returned by a successful reconcile is sorted by
name ascending (case-sensitive lexical string order) and is, up to order,
exactly the serialization of the user's full committed repository set. -/
theorem c7_sorted_response (s : Store) (u : String) (l : List RepoRecord) (now : Nat)
    (s' : Store) (resp : UserSyncResponse) (hwf : s.WF)
    (h : upsert_user_and_repos s u l now = Except.ok (s', resp)) :
    resp.repositories.Pairwise (fun a b => a.name ≤ b.name) ∧
    resp.repositories.Perm ((s'.repos.filter
      (fun r => r.user_id == syncUserId s u)).map RepositoryBase.from_orm) := by
  rcases upsert_ok_inv s u l now s' resp hwf.1 h with ⟨_, hs, hr⟩
  subst hs
  subst hr
  constructor
  · show (((((netRepos (syncUserId s u) s l).filter
        (fun r => r.user_id == syncUserId s u)).mergeSort
        (fun a b => decide (a.name.getD "" ≤ b.name.getD ""))).map
        RepositoryBase.from_orm).Pairwise (fun a b => a.name ≤ b.name))
    rw [List.pairwise_map]
    have htrans : ∀ a b c : RepoRow,
        (fun a b => decide (a.name.getD "" ≤ b.name.getD "")) a b = true →
        (fun a b => decide (a.name.getD "" ≤ b.name.getD "")) b c = true →
        (fun a b => decide (a.name.getD "" ≤ b.name.getD "")) a c = true := by
      intro a b c hab hbc
      simp only [decide_eq_true_eq] at hab hbc ⊢
      exact le_trans hab hbc
    have htotal : ∀ a b : RepoRow,
        ((fun a b => decide (a.name.getD "" ≤ b.name.getD "")) a b ||
         (fun a b => decide (a.name.getD "" ≤ b.name.getD "")) b a) = true := by
      intro a b
      simp only [Bool.or_eq_true, decide_eq_true_eq]
      exact le_total _ _
    have hsorted := List.sorted_mergeSort htrans htotal
      ((netRepos (syncUserId s u) s l).filter (fun r => r.user_id == syncUserId s u))
    refine hsorted.imp ?_
    intro a b hab
    exact of_decide_eq_true hab
  · show ((((netRepos (syncUserId s u) s l).filter
        (fun r => r.user_id == syncUserId s u)).mergeSort
        (fun a b => decide (a.name.getD "" ≤ b.name.getD ""))).map
        RepositoryBase.from_orm).Perm _
    exact (List.mergeSort_perm _ _).map RepositoryBase.from_orm

/-- Witness for C7: the first "alice" sync returns the three repositories
in name order (alpha, mid, zeta). -/
theorem c7_sorted_response_witness :
    respAlice.repositories.Pairwise (fun a b => a.name ≤ b.name) ∧
    respAlice.repositories.Perm ((storeAlice.repos.filter
      (fun r => r.user_id == syncUserId emptyStore "alice")).map RepositoryBase.from_orm) :=
  c7_sorted_response emptyStore "alice" [recZeta, recAlpha, recMid] 5
    storeAlice respAlice (by decide) rfl

/-- C5 counterexample: a valid record (it has an external id) with no name
makes the whole operation fail with an integrity error (the `name` column
is NOT NULL), instead of succeeding with a null stored name as the claim
states. -/
theorem c5_overwrite_counterexample :
    upsert_user_and_repos emptyStore "alice" [recNoName] 3 =
      Except.error StoreError.integrityError := rfl

/-- C5 (amended): on every successful reconcile, each valid external id has
a stored row whose name, html_url, description and language equal the
values of the last input record bearing that id (hence missing description
or language is stored as null); but name and html_url are necessarily
present — a record missing them makes the commit fail instead. -/
theorem c5_overwrite_fields (s : Store) (u : String) (l : List RepoRecord) (now : Nat)
    (s' : Store) (resp : UserSyncResponse) (gid : Int) (hwf : s.WF)
    (h : upsert_user_and_repos s u l now = Except.ok (s', resp))
    (hmem : gid ∈ validIds l) :
    ∃ r' ∈ s'.repos, r'.user_id = syncUserId s u ∧ r'.github_id = gid ∧
      ∃ rec, lastMatch gid l = some rec ∧
        r'.name = rec.name ∧ r'.html_url = rec.html_url ∧
        r'.description = rec.description ∧ r'.language = rec.language ∧
        r'.name.isSome = true ∧ r'.html_url.isSome = true := by
  rcases upsert_ok_inv s u l now s' resp hwf.1 h with ⟨hchk, hs, _⟩
  subst hs
  rcases (netRepos_keys (syncUserId s u) s l gid).mpr hmem with ⟨r', hr', hu, hg⟩
  rcases netRepos_user_fields (syncUserId s u) s l hchk r' hr' hu with ⟨rec, hlm, hf⟩
  rw [hg] at hlm
  have hnn := (commitChk_parts (syncUserId s u) _ hchk).1 r'
    (List.mem_filter.mpr ⟨hr', by simp [hu]⟩)
  exact ⟨r', hr', hu, hg, rec, hlm, hf.1, hf.2.1, hf.2.2.1, hf.2.2.2, hnn.1, hnn.2⟩

/-- Witness for the amended C5: the renamed record for external id 12 wins
(the stored name becomes "omega"). -/
theorem c5_overwrite_fields_witness :
    ∃ r' ∈ storeRenamed.repos, r'.user_id = syncUserId storeAlice "alice" ∧
      r'.github_id = 12 ∧
      ∃ rec, lastMatch 12 renamedList = some rec ∧
        r'.name = rec.name ∧ r'.html_url = rec.html_url ∧
        r'.description = rec.description ∧ r'.language = rec.language ∧
        r'.name.isSome = true ∧ r'.html_url.isSome = true :=
  c5_overwrite_fields storeAlice "alice" renamedList 7 storeRenamed respRenamed 12
    (by decide) rfl (by decide)

/-! ### Frame lemmas for the cross-user claim -/

theorem other_user_id_ne (s : Store) (a : String) (b : UserRow) (hwf : s.WF)
    (hb : b ∈ s.users) (hba : b.username ≠ a) : ¬ b.id = syncUserId s a := by
  unfold syncUserId
  cases hf : s.users.find? (fun x => x.username == a) with
  | some u0 =>
    have hu0 : u0 ∈ s.users := List.mem_of_find?_eq_some hf
    have hu0n : u0.username = a := by simpa using List.find?_some hf
    have hbne : b ≠ u0 := by
      intro hq
      rw [hq] at hba
      exact hba hu0n
    have hsymm : Symmetric (fun u₁ u₂ : UserRow => u₁.id ≠ u₂.id) :=
      fun x y hxy => hxy.symm
    exact hwf.2.2.2.2.forall hsymm hb hu0 hbne
  | none =>
    show ¬ b.id = s.next_user_id
    have := hwf.2.2.1 b hb
    omega

theorem mem_usersAfter_other (s : Store) (a : String) (now : Nat) (b : UserRow)
    (hwf : s.WF) (hb : b ∈ s.users) (hba : b.username ≠ a) :
    b ∈ usersAfter s a now := by
  have hbid := other_user_id_ne s a b hwf hb hba
  have hbeq : (b.id == syncUserId s a) = false := by
    simp [hbid]
  unfold usersAfter foundUser
  cases hf : s.users.find? (fun x => x.username == a) with
  | some u0 =>
    apply List.mem_map.mpr
    exact ⟨b, hb, by simp [hbeq]⟩
  | none =>
    apply List.mem_map.mpr
    exact ⟨b, List.mem_append.mpr (Or.inl hb), by simp [hbeq]⟩

theorem keptRows_filter_ne (uid k : Nat) (hk : ¬ k = uid) (l : List RepoRecord)
    (d : List RepoRow) :
    (keptRows uid l d).filter (fun r => r.user_id == k) =
      d.filter (fun r => r.user_id == k) := by
  unfold keptRows
  rw [List.filter_filter, List.filter_map]
  have h2 : d.filter ((fun r => r.user_id == k &&
        !(r.user_id == uid && !((validIds l).contains r.github_id))) ∘ rowAfter uid l) =
      d.filter (fun r => r.user_id == k) := by
    apply List.filter_congr
    intro r0 _
    show ((rowAfter uid l r0).user_id == k &&
      !((rowAfter uid l r0).user_id == uid &&
        !((validIds l).contains (rowAfter uid l r0).github_id))) =
      (r0.user_id == k)
    rw [rowAfter_user_id, rowAfter_github_id]
    by_cases hu : (r0.user_id == k) = true
    · have hk0 : r0.user_id = k := by simpa using hu
      have hne : (r0.user_id == uid) = false := by
        rw [hk0]
        simp [hk]
      rw [hu, hne]
      simp
    · have hu' : (r0.user_id == k) = false := Bool.eq_false_iff.mpr hu
      rw [hu']
      simp
  rw [h2]
  apply List.map_congr_left ?_ |>.trans (List.map_id' _)
  intro r0 hr0
  apply rowAfter_not_user
  rcases List.mem_filter.mp hr0 with ⟨_, hp⟩
  have hk0 : r0.user_id = k := by simpa using hp
  rw [hk0]
  simp [hk]

theorem netRepos_filter_ne (uid k : Nat) (hk : ¬ k = uid) (s : Store)
    (l : List RepoRecord) :
    (netRepos uid s l).filter (fun r => r.user_id == k) =
      s.repos.filter (fun r => r.user_id == k) := by
  rw [netRepos, List.filter_append, keptRows_filter_ne uid k hk]
  have hins : (insertedRows uid (userKeys uid s.repos) l s.next_repo_id).filter
      (fun r => r.user_id == k) = [] := by
    rw [List.filter_eq_nil_iff]
    intro r hr
    have := (insertedRows_mem uid _ l _ r hr).1
    rw [this]
    simp
    intro hq
    exact hk hq.symm
  rw [hins, List.append_nil]

/-- C8: reconciling user `a` never creates, modifies, or deletes rows of a
different user `b`: b's user row survives unchanged and b's repository rows
are exactly what they were, whether the transaction commits or fails. -/
theorem c8_cross_user_frame (s : Store) (a : String) (l : List RepoRecord) (now : Nat)
    (b : UserRow) (hwf : s.WF) (hb : b ∈ s.users) (hba : b.username ≠ a) :
    b ∈ (afterUpsert s a l now).users ∧
    (afterUpsert s a l now).repos.filter (fun r => r.user_id == b.id) =
      s.repos.filter (fun r => r.user_id == b.id) := by
  unfold afterUpsert
  by_cases hchk : commitChk (syncUserId s a) (netRepos (syncUserId s a) s l) = true
  · rw [upsert_ok_of_chk s a l now hwf.1 hchk]
    constructor
    · exact mem_usersAfter_other s a now b hwf hb hba
    · exact netRepos_filter_ne (syncUserId s a) b.id
        (fun hq => other_user_id_ne s a b hwf hb hba hq) s l
  · rw [upsert_error_of_chk s a l now hwf.1 (Bool.eq_false_iff.mpr hchk)]
    exact ⟨hb, rfl⟩

/-- Witness for C8: re-syncing "alice" leaves "bob" and his repositories
untouched. -/
theorem c8_cross_user_frame_witness :
    bobRow ∈ (afterUpsert storeAB "alice" [recZeta] 8).users ∧
    (afterUpsert storeAB "alice" [recZeta] 8).repos.filter
      (fun r => r.user_id == bobRow.id) =
      storeAB.repos.filter (fun r => r.user_id == bobRow.id) :=
  c8_cross_user_frame storeAB "alice" [recZeta] 8 bobRow (by decide) (by decide)
    (by decide)

/-- After a committed reconcile every valid id already has its row with the
last-write fields, so running the same update/prune pipeline again returns
the repository table unchanged. -/
theorem netRepos_fixpoint (uid : Nat) (s : Store) (l : List RepoRecord)
    (hchk : commitChk uid (netRepos uid s l) = true) :
    ∀ nrid : Nat,
      keptRows uid l (netRepos uid s l) ++
        insertedRows uid (userKeys uid (netRepos uid s l)) l nrid =
      netRepos uid s l := by
  intro nrid
  have hins : insertedRows uid (userKeys uid (netRepos uid s l)) l nrid = [] := by
    apply insertedRows_eq_nil
    intro gid hg
    rcases (netRepos_keys uid s l gid).mpr hg with ⟨r, hr, hru, hrg⟩
    apply (contains_iff _ _).mpr
    exact (mem_userKeys uid (netRepos uid s l) gid).mpr ⟨r, hr, hru, hrg⟩
  have hmap : (netRepos uid s l).map (rowAfter uid l) = netRepos uid s l := by
    apply (List.map_congr_left ?_).trans (List.map_id' _)
    intro r hr
    by_cases hu : r.user_id = uid
    · rcases netRepos_user_fields uid s l hchk r hr hu with ⟨rec, hlm, hf⟩
      have hchar := rowAfter_lastMatch uid l r hu
      simp only [hlm] at hchar
      rw [hchar]
      exact applyFields_self rec r hf.1 hf.2.1 hf.2.2.1 hf.2.2.2
    · apply rowAfter_not_user
      simp [hu]
  have hkept : keptRows uid l (netRepos uid s l) = netRepos uid s l := by
    unfold keptRows
    rw [hmap, List.filter_eq_self]
    intro r hr
    by_cases hu : r.user_id = uid
    · have hmem := (contains_iff _ _).mp (netRepos_user_contains uid s l r hr hu)
      simp [hu, hmem]
    · simp [hu]
  rw [hins, hkept, List.append_nil]

/-- C4: reconcile is idempotent — a second call with the same list commits
and leaves the repository table exactly as after the first call, returning
status "updated"; the first call reports "new" exactly when the username
was absent from the store. -/
theorem c4_idempotent (s : Store) (u : String) (l : List RepoRecord) (n1 n2 : Nat)
    (s1 : Store) (r1 : UserSyncResponse) (hwf : s.WF)
    (h1 : upsert_user_and_repos s u l n1 = Except.ok (s1, r1)) :
    ∃ s2 r2, upsert_user_and_repos s1 u l n2 = Except.ok (s2, r2) ∧
      s2.repos = s1.repos ∧ r2.status = "updated" ∧ r2.is_new = false ∧
      (r1.status = "new" ↔ ¬ ∃ x ∈ s.users, x.username = u) := by
  rcases upsert_ok_inv s u l n1 s1 r1 hwf.1 h1 with ⟨hchk, hs1, hr1⟩
  subst hs1
  subst hr1
  rcases usersAfter_find s u n1 with ⟨w, hw, hwid, hwname, hwts⟩
  have hfound2 : foundUser (netStore s u l n1) u = some w := hw
  have huid2 : syncUserId (netStore s u l n1) u = syncUserId s u := by
    have heq : syncUserId (netStore s u l n1) u =
        (match (usersAfter s u n1).find? (fun x => x.username == u) with
         | some x => x.id
         | none => nextUidAfter s u) := rfl
    rw [heq, hw]
    exact hwid
  have hfix := netRepos_fixpoint (syncUserId s u) s l hchk
  have hnet2 : netRepos (syncUserId s u) (netStore s u l n1) l =
      netRepos (syncUserId s u) s l := hfix _
  have hchk2 : commitChk (syncUserId (netStore s u l n1) u)
      (netRepos (syncUserId (netStore s u l n1) u) (netStore s u l n1) l) = true := by
    rw [huid2, hnet2]
    exact hchk
  have hpw1 : (netStore s u l n1).repos.Pairwise distinctKey :=
    netRepos_pairwise (syncUserId s u) s l hwf.1 hchk
  refine ⟨netStore (netStore s u l n1) u l n2, netResp (netStore s u l n1) u l,
    upsert_ok_of_chk (netStore s u l n1) u l n2 hpw1 hchk2, ?_, ?_, ?_, ?_⟩
  · show netRepos (syncUserId (netStore s u l n1) u) (netStore s u l n1) l =
      (netStore s u l n1).repos
    rw [huid2, hnet2]
    rfl
  · show (if (foundUser (netStore s u l n1) u).isNone then "new" else "updated") =
      "updated"
    rw [hfound2]
    rfl
  · show (foundUser (netStore s u l n1) u).isNone = false
    rw [hfound2]
    rfl
  · show (if (foundUser s u).isNone then "new" else "updated") = "new" ↔
      ¬ ∃ x ∈ s.users, x.username = u
    cases hf : foundUser s u with
    | some u0 =>
      simp only [hf, Option.isNone_some, Bool.false_eq_true, if_false]
      constructor
      · intro hq
        exact absurd hq (by decide)
      · intro hq
        exfalso
        apply hq
        refine ⟨u0, List.mem_of_find?_eq_some hf, ?_⟩
        simpa using List.find?_some hf
    | none =>
      simp only [hf, Option.isNone_none, if_true]
      constructor
      · intro _
        rintro ⟨x, hx, hxu⟩
        have := List.find?_eq_none.mp hf x hx
        simp [hxu] at this
      · intro _
        trivial

/-- Witness for C4: the "alice" sync repeated from the committed state. -/
theorem c4_idempotent_witness :
    ∃ s2 r2, upsert_user_and_repos storeAlice "alice" [recZeta, recAlpha, recMid] 6 =
      Except.ok (s2, r2) ∧
      s2.repos = storeAlice.repos ∧ r2.status = "updated" ∧ r2.is_new = false ∧
      (respAlice.status = "new" ↔ ¬ ∃ x ∈ emptyStore.users, x.username = "alice") :=
  c4_idempotent emptyStore "alice" [recZeta, recAlpha, recMid] 5 6 storeAlice respAlice
    (by decide) rfl
